import Mathlib

/-!
# Verification of the FA-Nexus free-text search engine

A shallow embedding, in Lean 4, of the search/query engine of
`scripts/core/nexus-search-manager.js` (tokenizer `tokenizeQuery`,
recursive-descent parser `parseQueryAST`, evaluator `evaluateExpression`,
scorer `scoreMatch`, haystack builder `buildHaystack`, display key
`displayKey`, and the facade `NexusSearchManager.filter` / `matches`),
together with theorems settling the specification's claims about it.

Modelling conventions, chosen once and used throughout:

* Strings are Lean `String`s; character-level work happens on `String.data`
  (a `List Char`).
* JavaScript `String.prototype.toLowerCase` is modelled on ASCII letters
  only (`jsCharLower`); every string the claims exercise is ASCII.
* JavaScript `\s` (the whitespace class used by `trim` and by the token
  regular expression) is modelled by `isJsSpace`, covering the ASCII
  whitespace characters plus the common Unicode space characters.
* Record fields hold the string image of the JavaScript value:
  `Option String` with `none` for `undefined` (JavaScript string coercion
  of `undefined` is the literal text "undefined", see `jsUndef`); `tags`
  may also be an array of strings (`JsTags`).
* JavaScript regular expressions are modelled by executable scans with the
  same match semantics: the token pattern by `rawScanF`, the whole-word
  test built by `escapeRegExp`+`RegExp` by `wholeWordTest` (the escaping
  makes the term text literal, so the test is an occurrence search with
  non-alphanumeric boundaries).
* `Array.prototype.sort` with a consistent comparator is, per the
  ECMAScript specification, a stable sort ordered by the comparator; it is
  modelled by the stable insertion sort `jsSort`.
* The recursive-descent parser carries fuel; `parserFuel` exceeds any
  reachable recursion depth (every loop iteration and every descent step
  consumes a token within a bounded number of calls), so the fuel-exhausted
  branch is never reached from `parseQueryAST`.
-/

/-- JavaScript whitespace class `\s` (used by `trim` and the token pattern). -/
def isJsSpace (c : Char) : Bool :=
  c = ' ' || c = '\t' || c = '\n' || c = '\r' || c = '\x0b' || c = '\x0c' ||
  c = ' ' || c = ' ' || (' ' ≤ c && c ≤ ' ') ||
  c = ' ' || c = ' ' || c = ' ' || c = ' ' || c = '　' || c = '﻿'

/-- ASCII case mapping of JavaScript `toLowerCase` (all queried text is ASCII). -/
def jsCharLower (c : Char) : Char :=
  if 'A' ≤ c && c ≤ 'Z' then Char.ofNat (c.toNat + 32) else c

/-- `String.prototype.toLowerCase`, character by character. -/
def jsToLowerStr (s : String) : String :=
  ⟨s.data.map jsCharLower⟩

/-- `String.prototype.trim` on the character list: drop `\s` from both ends. -/
def jsTrimList (l : List Char) : List Char :=
  (((l.dropWhile isJsSpace).reverse).dropWhile isJsSpace).reverse

/-- `String.prototype.trim`. -/
def jsTrim (s : String) : String :=
  ⟨jsTrimList s.data⟩

/-- A character the token pattern's final alternative `[^\s()]+` accepts. -/
def isRunChar (c : Char) : Bool :=
  !isJsSpace c && c ≠ '(' && c ≠ ')'

/-- First occurrence split: `splitFirst q l = some (before, after)` when `q`
occurs in `l`, with `l = before ++ q :: after` and `q ∉ before`. -/
def splitFirst (q : Char) : List Char → Option (List Char × List Char)
  | [] => none
  | c :: rest =>
    if c = q then some ([], rest)
    else match splitFirst q rest with
      | some (b, a) => some (c :: b, a)
      | none => none

/-- The scan of `query.match(TOKEN_PATTERN)` with
`TOKEN_PATTERN = /\(|\)|'[^']*'|"[^"]*"|[^\s()]+/g`: at each position the
alternatives are tried in order (a paren character; a single- or
double-quoted span, which requires a closing quote and runs to the first
one; a maximal run of non-space non-paren characters), and positions where
none matches (whitespace) are skipped.  `fuel` only bounds the recursion;
each step consumes at least one character, so `length + 1` fuel always
suffices (`rawScanF_fuel`). -/
def rawScanF : Nat → List Char → List (List Char)
  | 0, _ => []
  | _, [] => []
  | fuel + 1, c :: rest =>
    if c = '(' then ['('] :: rawScanF fuel rest
    else if c = ')' then [')'] :: rawScanF fuel rest
    else if isJsSpace c then rawScanF fuel rest
    else
      match (if c = '\'' || c = '"' then splitFirst c rest else none) with
      | some (mid, after) => (c :: (mid ++ [c])) :: rawScanF fuel after
      | none => (c :: rest.takeWhile isRunChar) :: rawScanF fuel (rest.dropWhile isRunChar)

/-- The raw lexemes of a query (`String(query).match(TOKEN_PATTERN) || []`). -/
def rawScan (l : List Char) : List (List Char) :=
  rawScanF (l.length + 1) l

/-- Query tokens (`tokenizeQuery`'s output elements). `TERM` carries the
lowercased text, whether the lexeme was quoted (`exact`) and whether it was
negated; unquoted lexemes carry `exact := false` (the source omits the
field, which reads as `undefined`, falsy). -/
inductive Tok where
  | TERM (value : String) (exact : Bool) (negated : Bool)
  | AND
  | OR
  | NOT
  | LPAREN
  | RPAREN
deriving DecidableEq, Repr

/-- `/^'[^']*'$/` (resp. with `"`): the lexeme is fully quoted by `q`. -/
def isFullyQuoted (q : Char) (l : List Char) : Bool :=
  decide (2 ≤ l.length) && l.head? = some q && l.getLast? = some q &&
    ((l.drop 1).dropLast.all (· ≠ q))

/-- Keyword test `/^and$/i` and friends on the current lexeme. -/
def isKeyword (w : String) (l : List Char) : Bool :=
  l.map jsCharLower = w.data

/-- One iteration of `tokenizeQuery`'s loop over raw lexemes: takes the
pending-negation flag and the raw lexeme, returns the emitted tokens and the
new pending-negation flag.  A direct transcription of the loop body. -/
def processLexeme (pending : Bool) (raw : List Char) : List Tok × Bool :=
  let tok0 := jsTrimList raw
  if tok0 = [] then ([], pending)
  else if tok0 = ['-'] then ([], true)
  else
    -- let negated = pendingNegation; pendingNegation = false; strip leading dashes
    let tok1 := tok0.dropWhile (· = '-')
    let negated := pending || decide (tok1 ≠ tok0)
    if tok1 = [] then ([], negated)
    else
      -- peel leading parens, attaching a NOT before the first if negated
      let lparens := tok1.takeWhile (· = '(') |>.length
      let tok2 := tok1.dropWhile (· = '(')
      let prefixToks : List Tok :=
        if lparens = 0 then []
        else (if negated then [Tok.NOT] else []) ++ List.replicate lparens Tok.LPAREN
      let negated2 := negated && decide (lparens = 0)
      -- count and strip trailing parens
      let rparens := (tok2.reverse.takeWhile (· = ')')).length
      let core := tok2.reverse.dropWhile (· = ')') |>.reverse
      let rparenToks := List.replicate rparens Tok.RPAREN
      if core = [] then (prefixToks ++ rparenToks, false)
      else if isFullyQuoted '\'' core || isFullyQuoted '"' core then
        let inner := (jsTrimList ((core.drop 1).dropLast)).map jsCharLower
        if inner ≠ [] then
          if !(negated2 && decide (inner.length < 2)) then
            (prefixToks ++ [Tok.TERM ⟨inner⟩ true negated2] ++ rparenToks, false)
          else (prefixToks ++ rparenToks, true)
        else if negated2 then (prefixToks ++ rparenToks, true)
        else (prefixToks ++ rparenToks, false)
      else if !negated2 && isKeyword "and" core then (prefixToks ++ [Tok.AND] ++ rparenToks, false)
      else if !negated2 && isKeyword "or" core then (prefixToks ++ [Tok.OR] ++ rparenToks, false)
      else if !negated2 && isKeyword "not" core then (prefixToks ++ [Tok.NOT] ++ rparenToks, false)
      else
        let value := core.map jsCharLower
        if negated2 && decide (value.length < 2) then (prefixToks ++ rparenToks, true)
        else (prefixToks ++ [Tok.TERM ⟨value⟩ false negated2] ++ rparenToks, false)

/-- `tokenizeQuery`'s loop: fold `processLexeme` over the raw lexemes,
threading the pending-negation flag. -/
def tokensFrom : Bool → List (List Char) → List Tok
  | _, [] => []
  | pending, raw :: rest =>
    let step := processLexeme pending raw
    step.1 ++ tokensFrom step.2 rest

/-- `tokenizeQuery(query)`. -/
def tokenizeQuery (query : String) : List Tok :=
  tokensFrom false (rawScan query.data)

/-- Expression-tree nodes (`parseQueryAST`'s node objects).  A `TERM` node
keeps the whole token's fields (the source stores the token object). -/
inductive Expr where
  | term (value : String) (exact : Bool) (negated : Bool)
  | and (left right : Expr)
  | or (left right : Expr)
  | not (operand : Expr)
deriving DecidableEq, Repr

/-- The binary node kinds `combine` is called with. -/
inductive BinKind where
  | AND
  | OR
deriving DecidableEq, Repr

/-- `combine(left, right, kind)`: return the non-null side if either operand
is absent, else wrap as a binary node. -/
def combine (left right : Option Expr) (kind : BinKind) : Option Expr :=
  match left, right with
  | none, r => r
  | some l, none => some l
  | some l, some r =>
    match kind with
    | BinKind.AND => some (Expr.and l r)
    | BinKind.OR => some (Expr.or l r)

/-- `parseUnary`'s rejection of a malformed NOT operand:
`operand.kind === 'TERM' && (!operand.token?.value || operand.token.value.length < 2)`. -/
def badNotOperand : Expr → Bool
  | Expr.term v _ _ => v = "" || decide (v.length < 2)
  | _ => false

mutual

/-- `parseOr`: `parseAnd`, then greedily `OR`-combine further `parseAnd`s. -/
def parseOr (fuel : Nat) (ts : List Tok) : Option Expr × List Tok :=
  match fuel with
  | 0 => (none, ts)
  | fuel + 1 =>
    let s := parseAnd fuel ts
    parseOrLoop fuel s.1 s.2

/-- The `while` loop of `parseOr`. -/
def parseOrLoop (fuel : Nat) (node : Option Expr) (ts : List Tok) : Option Expr × List Tok :=
  match fuel with
  | 0 => (node, ts)
  | fuel + 1 =>
    match ts with
    | Tok.OR :: rest =>
      let s := parseAnd fuel rest
      parseOrLoop fuel (combine node s.1 BinKind.OR) s.2
    | _ => (node, ts)

/-- `parseAnd`: `parseUnary`, then the explicit/implicit-AND loop. -/
def parseAnd (fuel : Nat) (ts : List Tok) : Option Expr × List Tok :=
  match fuel with
  | 0 => (none, ts)
  | fuel + 1 =>
    let s := parseUnary fuel ts
    parseAndLoop fuel s.1 s.2

/-- The `while` loop of `parseAnd`: an explicit `AND` followed by a unary
operand, or an adjacent TERM/NOT/LPAREN as an implicit AND operand; stops at
OR, RPAREN, end of stream, or a null operand. -/
def parseAndLoop (fuel : Nat) (node : Option Expr) (ts : List Tok) : Option Expr × List Tok :=
  match fuel with
  | 0 => (node, ts)
  | fuel + 1 =>
    match ts with
    | [] => (node, [])
    | Tok.AND :: rest =>
      let s := parseUnary fuel rest
      match s.1 with
      | none => (node, s.2)
      | some r => parseAndLoop fuel (combine node (some r) BinKind.AND) s.2
    | Tok.OR :: _ => (node, ts)
    | Tok.RPAREN :: _ => (node, ts)
    | _ =>
      -- TERM, NOT or LPAREN at the head: implicit AND
      let s := parseUnary fuel ts
      match s.1 with
      | none => (node, s.2)
      | some r => parseAndLoop fuel (combine node (some r) BinKind.AND) s.2

/-- `parseUnary`: `NOT` wraps the next unary operand (dropped if null or a
too-short bare TERM), otherwise `parsePrimary`. -/
def parseUnary (fuel : Nat) (ts : List Tok) : Option Expr × List Tok :=
  match fuel with
  | 0 => (none, ts)
  | fuel + 1 =>
    match ts with
    | [] => (none, [])
    | Tok.NOT :: rest =>
      let s := parseUnary fuel rest
      match s.1 with
      | none => (none, s.2)
      | some op =>
        if badNotOperand op then (none, s.2) else (some (Expr.not op), s.2)
    | _ => parsePrimary fuel ts

/-- `parsePrimary`: a TERM becomes a TERM node (wrapped in NOT when the token
itself is negated); an LPAREN parses a grouped `parseOr`, consuming the
matching RPAREN if present; any other token is consumed and skipped. -/
def parsePrimary (fuel : Nat) (ts : List Tok) : Option Expr × List Tok :=
  match fuel with
  | 0 => (none, ts)
  | fuel + 1 =>
    match ts with
    | [] => (none, [])
    | Tok.TERM v ex ng :: rest =>
      let node := Expr.term v ex ng
      (some (if ng then Expr.not node else node), rest)
    | Tok.LPAREN :: rest =>
      let s := parseOr fuel rest
      match s.2 with
      | Tok.RPAREN :: ts₂ => (s.1, ts₂)
      | _ => (s.1, s.2)
    | _ :: rest => (none, rest)

end

/-- Fuel that exceeds any reachable recursion depth of the parser: between
two consecutive token consumptions the parser makes at most a bounded
number of calls. -/
def parserFuel (ts : List Tok) : Nat :=
  8 * ts.length + 8

/-- `parseQueryAST(tokens)`: the expression tree, or `none` for an empty or
fully-unparseable token stream; trailing unconsumed tokens are ignored. -/
def parseQueryAST (ts : List Tok) : Option Expr :=
  (parseOr (parserFuel ts) ts).1

/-- A record's `tags` field: a string, or an array of strings (joined with
spaces wherever the engine reads it). -/
inductive JsTags where
  | str (s : String)
  | arr (l : List String)
deriving DecidableEq, Repr

/-- A content record: the fields the engine reads, each optional (`none`
models a missing/undefined field).  String-valued fields hold the string
image of the JavaScript value. -/
structure Record where
  display_name : Option String := none
  displayName : Option String := none
  filename : Option String := none
  name : Option String := none
  path : Option String := none
  file_path : Option String := none
  tags : Option JsTags := none
  scale : Option String := none
  grid_width : Option String := none
  grid_height : Option String := none
  size : Option String := none
  creature_type : Option String := none
  variant : Option String := none
  source : Option String := none
  tier : Option String := none
  color_variant : Option String := none
deriving DecidableEq, Repr

/-- String concatenation's coercion of a possibly-undefined value:
`undefined` turns into the literal text "undefined". -/
def jsUndef : Option String → String
  | none => "undefined"
  | some s => s

/-- `x || ''` on an optional string: missing and empty both give "". -/
def jsOrEmpty (o : Option String) : String :=
  o.getD ""

/-- A chain `a || b || ... || ''`: the first present, non-empty string. -/
def firstTruthy : List (Option String) → String
  | [] => ""
  | some s :: rest => if s = "" then firstTruthy rest else s
  | none :: rest => firstTruthy rest

/-- `Array.prototype.join(sep)`: elements joined with the separator. -/
def jsJoin (sep : String) : List String → String
  | [] => ""
  | [a] => a
  | a :: rest => a ++ sep ++ jsJoin sep rest

/-- The raw tags text:
`Array.isArray(item?.tags) ? item.tags.join(' ') : (item?.tags || '')`. -/
def tagsRaw (item : Record) : String :=
  match item.tags with
  | some (JsTags.arr l) => jsJoin " " l
  | some (JsTags.str s) => s
  | none => ""

/-- `buildHaystack(item)`: the listed fields (with the literal
`'s' + scale + 'x'` and `grid_width + 'x' + grid_height` concatenations,
which read "undefined" for missing numeric fields), space-joined, then
lowercased. -/
def buildHaystack (item : Record) : String :=
  let tags := tagsRaw item
  let grid_size := jsUndef item.grid_width ++ "x" ++ jsUndef item.grid_height
  let scale := "s" ++ jsUndef item.scale ++ "x"
  let fields : List String :=
    [jsOrEmpty item.display_name,
     jsOrEmpty item.filename,
     jsOrEmpty item.path,
     (if scale = "" then "" else scale),
     (if grid_size = "" then "" else grid_size),
     jsOrEmpty item.size,
     jsOrEmpty item.creature_type,
     jsOrEmpty item.variant,
     jsOrEmpty item.source,
     jsOrEmpty item.tier,
     jsOrEmpty item.color_variant,
     tags]
  jsToLowerStr (jsJoin " " fields)

/-- `displayKey(item)`:
`String(item?.display_name || item?.displayName || item?.filename || item?.name || '')`. -/
def displayKey (item : Record) : String :=
  firstTruthy [item.display_name, item.displayName, item.filename, item.name]

/-- The word-boundary class `[^a-z0-9]` (`WORD_BOUNDARY_RE`), as the
complement of the alphanumeric class it excludes. -/
def isAlnum (c : Char) : Bool :=
  ('a' ≤ c && c ≤ 'z') || ('0' ≤ c && c ≤ '9')

/-- `v` occurs in `l` starting at index `i`. -/
def occursAt (l v : List Char) (i : Nat) : Bool :=
  v.isPrefixOf (l.drop i)

/-- `String.prototype.indexOf`: the least index where `v` occurs, if any. -/
def jsIndexOf (l v : List Char) : Option Nat :=
  (List.range (l.length + 1)).find? (occursAt l v)

/-- `String.prototype.includes`: substring containment. -/
def jsIncludes (l v : List Char) : Bool :=
  (jsIndexOf l v).isSome

/-- `hasWordBoundary(str, index, length)`: the characters just before and
just after the slice are absent (string edge) or non-alphanumeric. -/
def hasWordBoundary (l : List Char) (index len : Nat) : Bool :=
  (decide (index = 0) || (match l.get? (index - 1) with
    | some c => !isAlnum c
    | none => true)) &&
  (match l.get? (index + len) with
    | some c => !isAlnum c
    | none => true)

/-- The test of the whole-word regular expression
`(?:^|[^a-z0-9])value(?:$|[^a-z0-9])` (the term text is escaped in the
source, so it is matched literally): some occurrence of `v` in `l` is
bounded on both sides by the string edge or a non-alphanumeric character. -/
def wholeWordTest (l v : List Char) : Bool :=
  (List.range (l.length + 1)).any fun i =>
    occursAt l v i &&
    (decide (i = 0) || (match l.get? (i - 1) with
      | some c => !isAlnum c
      | none => true)) &&
    (match l.get? (i + v.length) with
      | some c => !isAlnum c
      | none => true)

/-- `haystackIncludesTerm(haystack, token)`: false on a non-TERM or empty
token; whole-word match for exact (quoted) terms, plain substring
containment otherwise. -/
def haystackIncludesTerm (haystack : String) (token : Tok) : Bool :=
  match token with
  | Tok.TERM v ex _ =>
    if v = "" then false
    else if ex then wholeWordTest haystack.data v.data
    else jsIncludes haystack.data v.data
  | _ => false

/-- `evaluateExpression` on a non-null node (the null case is
`evaluateExpression`). -/
def evalExpr : Expr → String → Bool
  | Expr.term v ex ng, h => haystackIncludesTerm h (Tok.TERM v ex ng)
  | Expr.and l r, h => evalExpr l h && evalExpr r h
  | Expr.or l r, h => evalExpr l h || evalExpr r h
  | Expr.not e, h => !evalExpr e h

/-- `evaluateExpression(node, haystack)`: a null node matches everything. -/
def evaluateExpression (node : Option Expr) (haystack : String) : Bool :=
  match node with
  | none => true
  | some e => evalExpr e haystack

/-- `collectPositiveTerms(node, out, negated)`: the TERM tokens under an
even number of NOTs, left to right. -/
def collectPositiveTerms : Expr → Bool → List Tok
  | Expr.term v ex ng, negated => if negated then [] else [Tok.TERM v ex ng]
  | Expr.and l r, negated => collectPositiveTerms l negated ++ collectPositiveTerms r negated
  | Expr.or l r, negated => collectPositiveTerms l negated ++ collectPositiveTerms r negated
  | Expr.not e, negated => collectPositiveTerms e (!negated)

/-- `collectPositiveTerms` from the top of a possibly-null tree
(`if (!node) return out` in the source). -/
def collectPos : Option Expr → List Tok
  | none => []
  | some e => collectPositiveTerms e false

/-- `filename.replace(/\.[^.]+$/, '')`: strip a final dot-extension (at
least one non-dot character after the last dot). -/
def stripExtList (l : List Char) : List Char :=
  let extRev := l.reverse.takeWhile (· ≠ '.')
  if extRev.length = l.length then l
  else if extRev = [] then l
  else l.take (l.length - extRev.length - 1)

/-- The character just after a slice is absent or non-alphanumeric
(`const nextCh = field.charAt(len); !nextCh || WORD_BOUNDARY_RE.test(nextCh)`). -/
def boundaryAfter (l : List Char) (i : Nat) : Bool :=
  match l.get? i with
  | some c => !isAlnum c
  | none => true

/-- One positive term's contribution to `scoreMatch`'s running total: the
field cascade nameRoot / displayName / tags / path with its tier constants,
each field inspected only at the first occurrence (`indexOf`) of the term. -/
def termScore (nameRoot displayName path tags : String) (term : Tok) : Nat :=
  match term with
  | Tok.TERM v ex _ =>
    if v = "" then 0
    else
      let value := v.data
      let len := value.length
      if nameRoot.data = value then 2000
      else if displayName.data = value then 1600
      else match jsIndexOf nameRoot.data value with
        | some nameIdx =>
          let boundary := hasWordBoundary nameRoot.data nameIdx len
          if nameIdx = 0 then
            if ex then (if boundary then 1200 else 0)
            else if boundaryAfter nameRoot.data len then 1100 else 900
          else if boundary then (if ex then 950 else 750)
          else if !ex then 500 else 0
        | none =>
          match jsIndexOf displayName.data value with
          | some displayIdx =>
            let boundary := hasWordBoundary displayName.data displayIdx len
            if displayIdx = 0 then
              if ex then (if boundary then 560 else 0)
              else if boundaryAfter displayName.data len then 520 else 450
            else if boundary then (if ex then 410 else 380)
            else if !ex then 280 else 0
          | none =>
            if tags ≠ "" && haystackIncludesTerm tags term then
              (if ex then 200 else 160)
            else if path ≠ "" then
              match jsIndexOf path.data value with
              | some pathIdx =>
                if hasWordBoundary path.data pathIdx len || !ex then
                  (if ex then 140 else 120)
                else 0
              | none => 0
            else 0
  | _ => 0

/-- The scorer's lowercased name root: the filename, lowercased, with its
final dot-extension stripped. -/
def scoreNameRoot (item : Record) : String :=
  ⟨stripExtList (jsToLowerStr (jsOrEmpty item.filename)).data⟩

/-- The scorer's lowercased display name (`display_name` or `displayName`). -/
def scoreDisplayName (item : Record) : String :=
  jsToLowerStr (firstTruthy [item.display_name, item.displayName])

/-- The scorer's lowercased path (`path` or `file_path`). -/
def scorePath (item : Record) : String :=
  jsToLowerStr (firstTruthy [item.path, item.file_path])

/-- The scorer's lowercased tags text. -/
def scoreTags (item : Record) : String :=
  jsToLowerStr (tagsRaw item)

/-- `scoreMatch(item, ast)`: precompute the per-record lowercase fields,
then sum each positive term's contribution (0 when there is none). -/
def scoreMatch (item : Record) (ast : Option Expr) : Nat :=
  let terms := collectPos ast
  if terms.isEmpty then 0
  else (terms.map (termScore (scoreNameRoot item) (scoreDisplayName item)
    (scorePath item) (scoreTags item))).sum

/-- Three-way character comparison by code point. -/
def charCmp (a b : Char) : Ordering :=
  if a < b then Ordering.lt else if b < a then Ordering.gt else Ordering.eq

/-- Lexicographic three-way comparison of character lists. -/
def listCmp : List Char → List Char → Ordering
  | [], [] => Ordering.eq
  | [], _ :: _ => Ordering.lt
  | _ :: _, [] => Ordering.gt
  | a :: as', b :: bs' =>
    match charCmp a b with
    | Ordering.eq => listCmp as' bs'
    | o => o

/-- Model of `String.prototype.localeCompare` under the default locale at
case-insensitive (primary) strength, the strength the engine's tie-breaking
contract is stated at: compare the lowercased texts code point by code
point; the sign convention matches `localeCompare`. -/
def localeCompare (a b : String) : Int :=
  match listCmp (a.data.map jsCharLower) (b.data.map jsCharLower) with
  | Ordering.lt => -1
  | Ordering.eq => 0
  | Ordering.gt => 1

/-- The sort comparator of `filter`:
`(b.score - a.score) || displayKey(a.item).localeCompare(displayKey(b.item))`
on (record, score) pairs. -/
def rowCmp (a b : Record × Nat) : Int :=
  let d : Int := (b.2 : Int) - (a.2 : Int)
  if d ≠ 0 then d else localeCompare (displayKey a.1) (displayKey b.1)

/-- "`a` may stay before `b`" for the comparator: the comparator is
non-positive. -/
def rowLe (a b : Record × Nat) : Bool :=
  decide (rowCmp a b ≤ 0)

/-- Stable insertion: place `x` after every element that may stay before
it. -/
def insertLe (le : α → α → Bool) (x : α) : List α → List α
  | [] => [x]
  | y :: ys => if le y x then y :: insertLe le x ys else x :: y :: ys

/-- `Array.prototype.sort` with a consistent comparator: the stable sort
ordered by the comparator (ECMAScript's sort contract), realized as
left-to-right insertion. -/
def jsSort (le : α → α → Bool) (l : List α) : List α :=
  l.foldl (fun acc x => insertLe le x acc) []

/-- `matches(item, query)`: true on an empty query, an empty token stream or
a null tree; otherwise evaluate the tree against the record's haystack. -/
def «matches» (item : Record) (query : String) : Bool :=
  if query = "" then true
  else
    let tokens := tokenizeQuery query
    if tokens.isEmpty then true
    else match parseQueryAST tokens with
      | none => true
      | some ast => evaluateExpression (some ast) (buildHaystack item)

/-- `NexusSearchManager.filter(items, query)`: trim; tokenize; parse; keep
the records whose haystack satisfies the tree; return `[]` when none match,
else score the matches and sort by score descending with the locale
tie-break on display keys. -/
def NexusSearchManager.filter (items : List Record) (query : String) : List Record :=
  let q := jsTrim query
  if q = "" then items
  else
    let tokens := tokenizeQuery q
    if tokens.isEmpty then items
    else match parseQueryAST tokens with
      | none => items
      | some ast =>
        let filtered := (items.map fun item => (item, buildHaystack item)).filter
          fun p => evaluateExpression (some ast) p.2
        if filtered.isEmpty then []
        else
          let rows := filtered.map fun p => (p.1, scoreMatch p.1 (some ast))
          (jsSort rowLe rows).map Prod.fst

/-! ## Basic facts about the scan -/

theorem rawScanF_nil (f : Nat) : rawScanF f [] = [] := by
  cases f <;> rfl

theorem splitFirst_length {q : Char} : ∀ {l b a : List Char},
    splitFirst q l = some (b, a) → a.length < l.length := by
  intro l
  induction l with
  | nil => intro b a h; simp [splitFirst] at h
  | cons c rest ih =>
    intro b a h
    simp only [splitFirst] at h
    by_cases hc : c = q
    · rw [if_pos hc] at h
      obtain ⟨rfl, rfl⟩ : ([] : List Char) = b ∧ rest = a := by
        simpa using h
      simp
    · rw [if_neg hc] at h
      rcases hr : splitFirst q rest with _ | ⟨b', a'⟩ <;> rw [hr] at h
      · cases h
      · obtain ⟨rfl, rfl⟩ : c :: b' = b ∧ a' = a := by simpa using h
        have := ih hr
        simp
        omega

theorem splitFirst_decomp {q : Char} : ∀ {l b a : List Char},
    splitFirst q l = some (b, a) → l = b ++ q :: a ∧ q ∉ b := by
  intro l
  induction l with
  | nil => intro b a h; simp [splitFirst] at h
  | cons c rest ih =>
    intro b a h
    simp only [splitFirst] at h
    by_cases hc : c = q
    · rw [if_pos hc] at h
      obtain ⟨rfl, rfl⟩ : ([] : List Char) = b ∧ rest = a := by simpa using h
      simp [hc]
    · rw [if_neg hc] at h
      rcases hr : splitFirst q rest with _ | ⟨b', a'⟩ <;> rw [hr] at h
      · cases h
      · obtain ⟨rfl, rfl⟩ : c :: b' = b ∧ a' = a := by simpa using h
        obtain ⟨hd, hnm⟩ := ih hr
        refine ⟨by rw [hd]; simp, ?_⟩
        simp [hnm]
        exact fun e => hc e.symm

theorem splitFirst_not_mem {q : Char} : ∀ {l : List Char}, q ∉ l → splitFirst q l = none := by
  intro l
  induction l with
  | nil => intro _; rfl
  | cons c rest ih =>
    intro h
    simp only [List.mem_cons] at h
    push_neg at h
    simp only [splitFirst]
    rw [if_neg (fun e => h.1 e.symm), ih h.2]

theorem splitFirst_mem {q : Char} : ∀ {l : List Char}, q ∈ l → (splitFirst q l).isSome := by
  intro l
  induction l with
  | nil => intro h; cases h
  | cons c rest ih =>
    intro h
    simp only [splitFirst]
    by_cases hc : c = q
    · rw [if_pos hc]; rfl
    · rw [if_neg hc]
      have hm : q ∈ rest := by
        rcases List.mem_cons.mp h with h' | h'
        · exact absurd h'.symm hc
        · exact h'
      obtain ⟨p, hp⟩ := Option.isSome_iff_exists.mp (ih hm)
      rw [hp]
      rfl

theorem not_mem_of_splitFirst_none {q : Char} {l : List Char}
    (h : splitFirst q l = none) : q ∉ l := by
  intro hm
  have := splitFirst_mem hm
  rw [h] at this
  cases this

theorem splitFirst_append {q : Char} {l b a ws : List Char}
    (h : splitFirst q l = some (b, a)) : splitFirst q (l ++ ws) = some (b, a ++ ws) := by
  induction l generalizing b a with
  | nil => simp [splitFirst] at h
  | cons c rest ih =>
    simp only [splitFirst, List.cons_append] at h ⊢
    by_cases hc : c = q
    · rw [if_pos hc] at h ⊢
      obtain ⟨rfl, rfl⟩ : ([] : List Char) = b ∧ rest = a := by simpa using h
      rfl
    · rw [if_neg hc] at h ⊢
      rcases hr : splitFirst q rest with _ | ⟨b', a'⟩ <;> rw [hr] at h
      · cases h
      · obtain ⟨rfl, rfl⟩ : c :: b' = b ∧ a' = a := by simpa using h
        rw [List.append_eq, ih hr]

theorem splitFirst_none_append {q : Char} {l ws : List Char}
    (h : splitFirst q l = none) (hws : q ∉ ws) : splitFirst q (l ++ ws) = none := by
  refine splitFirst_not_mem ?_
  simp [not_mem_of_splitFirst_none h, hws]

/-- The scan's value does not depend on the fuel once the fuel exceeds the
input length: every step consumes at least one character. -/
theorem rawScanF_fuel : ∀ (n : Nat) (l : List Char) (f₁ f₂ : Nat), l.length ≤ n →
    l.length < f₁ → l.length < f₂ → rawScanF f₁ l = rawScanF f₂ l := by
  intro n
  induction n with
  | zero =>
    intro l f₁ f₂ hn _ _
    have : l = [] := List.length_eq_zero.mp (Nat.le_zero.mp hn)
    subst this
    rw [rawScanF_nil, rawScanF_nil]
  | succ n ih =>
    intro l f₁ f₂ hn h₁ h₂
    cases l with
    | nil => rw [rawScanF_nil, rawScanF_nil]
    | cons c rest =>
      obtain ⟨g₁, rfl⟩ : ∃ g, f₁ = g + 1 := ⟨f₁ - 1, by omega⟩
      obtain ⟨g₂, rfl⟩ : ∃ g, f₂ = g + 1 := ⟨f₂ - 1, by omega⟩
      simp only [List.length_cons] at hn h₁ h₂
      simp only [rawScanF]
      have hrest : rest.length ≤ n := by omega
      have ihr := ih rest g₁ g₂ hrest (by omega) (by omega)
      have ihd := ih (rest.dropWhile isRunChar) g₁ g₂
        (le_trans (List.dropWhile_sublist isRunChar).length_le hrest)
        (lt_of_le_of_lt (List.dropWhile_sublist isRunChar).length_le (by omega))
        (lt_of_le_of_lt (List.dropWhile_sublist isRunChar).length_le (by omega))
      by_cases hp : c = '('
      · simp [hp, ihr]
      · by_cases hq : c = ')'
        · simp [hp, hq, ihr]
        · by_cases hs : isJsSpace c
          · simp [hp, hq, hs, ihr]
          · rcases hsf : (if c = '\'' || c = '"' then splitFirst c rest else none)
              with _ | ⟨mid, after⟩
            · simp [hp, hq, hs, hsf, ihd]
            · have hsp : splitFirst c rest = some (mid, after) := by
                by_cases hqq : c = '\'' || c = '"'
                · simpa [hqq] using hsf
                · simp [hqq] at hsf
              have hlen := splitFirst_length hsp
              have iha := ih after g₁ g₂ (by omega) (by omega) (by omega)
              simp [hp, hq, hs, hsf, iha]

theorem rawScanF_eq_rawScan {f : Nat} {l : List Char} (h : l.length < f) :
    rawScanF f l = rawScan l :=
  rawScanF_fuel l.length l f (l.length + 1) le_rfl h (by omega)

/-- One step of the scan, with the default fuel renormalized. -/
theorem rawScan_cons (c : Char) (rest : List Char) :
    rawScan (c :: rest) =
      if c = '(' then ['('] :: rawScan rest
      else if c = ')' then [')'] :: rawScan rest
      else if isJsSpace c then rawScan rest
      else match (if c = '\'' || c = '"' then splitFirst c rest else none) with
        | some (mid, after) => (c :: (mid ++ [c])) :: rawScan after
        | none => (c :: rest.takeWhile isRunChar) :: rawScan (rest.dropWhile isRunChar) := by
  show rawScanF ((c :: rest).length + 1) (c :: rest) = _
  simp only [List.length_cons, rawScanF]
  have hr : rawScanF (rest.length + 1) rest = rawScan rest := rfl
  by_cases hp : c = '('
  · simp [hp, hr]
  · by_cases hq : c = ')'
    · simp [hp, hq, hr]
    · by_cases hs : isJsSpace c
      · simp [hp, hq, hs, hr]
      · rcases hsf : (if c = '\'' || c = '"' then splitFirst c rest else none)
          with _ | ⟨mid, after⟩
        · have hd : (rest.dropWhile isRunChar).length < rest.length + 1 :=
            Nat.lt_succ_of_le (List.dropWhile_sublist isRunChar).length_le
          simp [hp, hq, hs, hsf, rawScanF_eq_rawScan hd]
        · have hsp : splitFirst c rest = some (mid, after) := by
            by_cases hqq : c = '\'' || c = '"'
            · simpa [hqq] using hsf
            · simp [hqq] at hsf
          have hlen : after.length < rest.length + 1 :=
            Nat.lt_succ_of_lt (splitFirst_length hsp)
          simp [hp, hq, hs, hsf, rawScanF_eq_rawScan hlen]

theorem isJsSpace_ne {c : Char} (h : isJsSpace c = true) :
    c ≠ '(' ∧ c ≠ ')' ∧ c ≠ '\'' ∧ c ≠ '"' := by
  refine ⟨?_, ?_, ?_, ?_⟩ <;> rintro rfl <;> exact absurd h (by decide)

theorem isRunChar_false_of_space {c : Char} (h : isJsSpace c = true) :
    isRunChar c = false := by
  simp [isRunChar, h]

theorem rawScan_spaces : ∀ {l : List Char}, l.all isJsSpace → rawScan l = [] := by
  intro l
  induction l with
  | nil => intro _; rfl
  | cons c rest ih =>
    intro h
    simp only [List.all_cons, Bool.and_eq_true] at h
    obtain ⟨hc, hrest⟩ := h
    obtain ⟨h1, h2, h3, h4⟩ := isJsSpace_ne hc
    rw [rawScan_cons, if_neg h1, if_neg h2, if_pos hc]
    exact ih hrest

theorem rawScan_spaces_prepend : ∀ {ws l : List Char}, ws.all isJsSpace →
    rawScan (ws ++ l) = rawScan l := by
  intro ws
  induction ws with
  | nil => intro l _; rfl
  | cons c rest ih =>
    intro l h
    simp only [List.all_cons, Bool.and_eq_true] at h
    obtain ⟨hc, hrest⟩ := h
    obtain ⟨h1, h2, h3, h4⟩ := isJsSpace_ne hc
    rw [List.cons_append, rawScan_cons, if_neg h1, if_neg h2, if_pos hc]
    exact ih hrest

theorem takeWhile_append_notHead {p : Char → Bool} : ∀ (l ws : List Char),
    (∀ w, ws.head? = some w → p w = false) →
    (l ++ ws).takeWhile p = l.takeWhile p ∧ (l ++ ws).dropWhile p = l.dropWhile p ++ ws := by
  intro l ws hws
  induction l with
  | nil =>
    cases ws with
    | nil => simp
    | cons w ws' =>
      have := hws w rfl
      simp [List.takeWhile, List.dropWhile, this]
  | cons c l' ih =>
    by_cases hc : p c
    · simp only [List.cons_append, List.takeWhile_cons, List.dropWhile_cons, hc]
      simp [ih]
    · simp only [List.cons_append, List.takeWhile_cons, List.dropWhile_cons]
      simp [hc]

theorem rawScan_append_spaces : ∀ (n : Nat) (l ws : List Char), l.length ≤ n →
    ws.all isJsSpace → rawScan (l ++ ws) = rawScan l := by
  intro n
  induction n with
  | zero =>
    intro l ws hn hws
    have : l = [] := List.length_eq_zero.mp (Nat.le_zero.mp hn)
    subst this
    simpa using rawScan_spaces hws
  | succ n ih =>
    intro l ws hn hws
    cases l with
    | nil => simpa using rawScan_spaces hws
    | cons c rest =>
      simp only [List.length_cons] at hn
      have hrest : rest.length ≤ n := by omega
      rw [List.cons_append, rawScan_cons, rawScan_cons]
      by_cases hp : c = '('
      · simp [hp, ih rest ws hrest hws]
      · by_cases hq : c = ')'
        · simp [hp, hq, ih rest ws hrest hws]
        · by_cases hs : isJsSpace c
          · simp [hp, hq, hs, ih rest ws hrest hws]
          · have hnm : c ∉ ws := fun hm => hs (List.all_eq_true.mp hws c hm)
            have hweak : ∀ w, ws.head? = some w → isRunChar w = false := by
              intro w hw
              have hmem : w ∈ ws := by
                cases ws with
                | nil => cases hw
                | cons a t =>
                  cases hw
                  exact List.mem_cons_self _ _
              exact isRunChar_false_of_space (List.all_eq_true.mp hws w hmem)
            obtain ⟨ht, hd⟩ := takeWhile_append_notHead rest ws hweak
            have hdl : (rest.dropWhile isRunChar).length ≤ n :=
              le_trans (List.dropWhile_sublist isRunChar).length_le hrest
            rcases hsf : (if c = '\'' || c = '"' then splitFirst c rest else none)
              with _ | ⟨mid, after⟩
            · have hsf2 : (if c = '\'' || c = '"' then splitFirst c (rest ++ ws) else none)
                  = none := by
                by_cases hqq : c = '\'' || c = '"'
                · have hsp : splitFirst c rest = none := by simpa [hqq] using hsf
                  simp [hqq, splitFirst_none_append hsp hnm]
                · simp [hqq]
              simp only [hp, hq, hs, hsf, hsf2, if_false, ht, hd]
              simp [ih (rest.dropWhile isRunChar) ws hdl hws]
            · have hqq : (c = '\'' || c = '"') = true := by
                by_cases h : c = '\'' || c = '"'
                · exact h
                · simp [h] at hsf
              have hsp : splitFirst c rest = some (mid, after) := by
                simpa [hqq] using hsf
              have hsf2 : (if c = '\'' || c = '"' then splitFirst c (rest ++ ws) else none)
                  = some (mid, after ++ ws) := by
                simp [hqq, splitFirst_append hsp]
              have hal : after.length ≤ n :=
                le_trans (le_of_lt (splitFirst_length hsp)) hrest
              simp only [hp, hq, hs, hsf, hsf2, if_false]
              simp [ih after ws hal hws]

/-- Trimming the query does not change the raw lexemes: the scan skips
whitespace at either end. -/
theorem rawScan_trim (l : List Char) : rawScan (jsTrimList l) = rawScan l := by
  have h1 : l = l.takeWhile isJsSpace ++ l.dropWhile isJsSpace :=
    (List.takeWhile_append_dropWhile (p := isJsSpace) (l := l)).symm
  have hws1 : (l.takeWhile isJsSpace).all isJsSpace :=
    List.all_eq_true.mpr fun c hc => List.mem_takeWhile_imp hc
  set l1 := l.dropWhile isJsSpace with hl1
  have h2 : rawScan l = rawScan l1 := by
    conv_lhs => rw [h1]
    exact rawScan_spaces_prepend hws1
  have h3 : l1 = jsTrimList l ++ (l1.reverse.takeWhile isJsSpace).reverse := by
    have e : l1.reverse = l1.reverse.takeWhile isJsSpace ++ l1.reverse.dropWhile isJsSpace :=
      (List.takeWhile_append_dropWhile (p := isJsSpace) (l := l1.reverse)).symm
    calc l1 = l1.reverse.reverse := (List.reverse_reverse l1).symm
      _ = (l1.reverse.takeWhile isJsSpace ++ l1.reverse.dropWhile isJsSpace).reverse := by
            rw [← e]
      _ = (l1.reverse.dropWhile isJsSpace).reverse ++ (l1.reverse.takeWhile isJsSpace).reverse :=
            List.reverse_append _ _
      _ = jsTrimList l ++ (l1.reverse.takeWhile isJsSpace).reverse := rfl
  have hws2 : ((l1.reverse.takeWhile isJsSpace).reverse).all isJsSpace :=
    List.all_eq_true.mpr fun c hc =>
      List.mem_takeWhile_imp (List.mem_reverse.mp hc)
  rw [h2]
  conv_rhs => rw [h3]
  exact (rawScan_append_spaces (jsTrimList l).length (jsTrimList l) _ le_rfl hws2).symm

/-- Tokenizing the trimmed query gives the same tokens as the raw query. -/
theorem tokenizeQuery_trim (q : String) : tokenizeQuery (jsTrim q) = tokenizeQuery q := by
  show tokensFrom false (rawScan (jsTrimList q.data)) = _
  rw [rawScan_trim]
  rfl

/-- C2 (helper): an empty trimmed query yields no tokens. -/
theorem tokenizeQuery_of_trim_empty {q : String} (h : jsTrim q = "") :
    tokenizeQuery q = [] := by
  rw [← tokenizeQuery_trim, h]
  rfl

/-! ## C2: malformed queries never fail; a null tree means no filter -/

/-- C2: `matches` and `filter` are total functions (they never throw by
construction of this embedding), and whenever parsing yields a null
expression tree the engine treats the query as no filter at all: `matches`
returns true and `filter` returns the input list unchanged. -/
theorem nullTree_matches_and_filter_noop (item : Record) (items : List Record) (q : String)
    (h : parseQueryAST (tokenizeQuery q) = none) :
    «matches» item q = true ∧ NexusSearchManager.filter items q = items := by
  constructor
  · unfold «matches»
    by_cases hq : q = ""
    · simp [hq]
    · simp only [hq, if_false]
      by_cases ht : (tokenizeQuery q).isEmpty
      · simp [ht]
      · simp [ht, h]
  · unfold NexusSearchManager.filter
    have htr : parseQueryAST (tokenizeQuery (jsTrim q)) = none := by
      rw [tokenizeQuery_trim]
      exact h
    by_cases hq : jsTrim q = ""
    · simp [hq]
    · simp only [hq, if_false]
      by_cases ht : (tokenizeQuery (jsTrim q)).isEmpty
      · simp [ht]
      · simp [ht, htr]

/-- C2 witness: the unmatched-parenthesis query "()" parses to a null tree,
and the engine treats it as matching everything. -/
theorem nullTree_matches_and_filter_noop_witness :
    «matches» {} "()" = true ∧ NexusSearchManager.filter [{}] "()" = [{}] :=
  nullTree_matches_and_filter_noop {} [{}] "()" (by decide)

/-! ## C1: the predicate and the batch filter agree on a single record -/

/-- C1: for every record and every query, `matches(r, q)` holds exactly when
`r` is a member of `filter([r], q)`: the single-record predicate and the
batch filter agree on membership. -/
theorem matches_iff_mem_filter_singleton (r : Record) (q : String) :
    «matches» r q = true ↔ r ∈ NexusSearchManager.filter [r] q := by
  by_cases hq : q = ""
  · subst hq
    constructor
    · intro _
      show r ∈ NexusSearchManager.filter [r] ""
      simp [NexusSearchManager.filter, jsTrim, jsTrimList]
    · intro _
      rfl
  · have htr := tokenizeQuery_trim q
    unfold «matches» NexusSearchManager.filter
    simp only [hq, if_false]
    by_cases h0 : jsTrim q = ""
    · have hz : tokenizeQuery q = [] := tokenizeQuery_of_trim_empty h0
      simp [h0, hz]
    · simp only [h0, if_false, htr]
      by_cases hemp : (tokenizeQuery q).isEmpty
      · simp [hemp]
      · simp only [hemp, if_false]
        rcases hast : parseQueryAST (tokenizeQuery q) with _ | ast
        · simp
        · simp only []
          rcases hev : evaluateExpression (some ast) (buildHaystack r) with _ | _
          · simp [hev]
          · simp [hev, jsSort, insertLe]

/-! ## C4: quoted terms match whole words only -/

theorem boundaryOpt_iff (l : List Char) (j : Nat) :
    (match l.get? j with | some c => !isAlnum c | none => true) = true ↔
    (l.get? j = none ∨ ∃ c, l.get? j = some c ∧ isAlnum c = false) := by
  rcases h : l.get? j with _ | c <;> simp [h]

theorem occursAt_lt_length {l v : List Char} {i : Nat}
    (h : occursAt l v i = true) (hv : v ≠ []) : i < l.length := by
  have hp : v <+: l.drop i := List.isPrefixOf_iff_prefix.mp h
  have hlen : v.length ≤ (l.drop i).length := hp.length_le
  rw [List.length_drop] at hlen
  have : 0 < v.length := List.length_pos.mpr hv
  omega

/-- C4: a quoted (exact) term matches exactly when its text occurs in the
haystack bounded on both sides by the string edge or a non-alphanumeric
character (the class `[^a-z0-9]`); in particular `'cat'` does not match the
record with filename "catalog.png" but does match the one with filename
"cat.png"; an unquoted term matches by plain substring containment. -/
theorem exact_term_whole_word :
    (∀ (hay v : String) (ng : Bool),
      haystackIncludesTerm hay (Tok.TERM v true ng) = true ↔
        (v ≠ "" ∧ ∃ i, occursAt hay.data v.data i = true ∧
          (i = 0 ∨ ∃ c, hay.data.get? (i - 1) = some c ∧ isAlnum c = false) ∧
          (hay.data.get? (i + v.length) = none ∨
            ∃ c, hay.data.get? (i + v.length) = some c ∧ isAlnum c = false))) ∧
    «matches» { filename := some "catalog.png" } "'cat'" = false ∧
    «matches» { filename := some "cat.png" } "'cat'" = true ∧
    (∀ (hay v : String) (ng : Bool), v ≠ "" →
      haystackIncludesTerm hay (Tok.TERM v false ng) = jsIncludes hay.data v.data) := by
  refine ⟨?_, by decide, by decide, ?_⟩
  · intro hay v ng
    by_cases hv : v = ""
    · simp [haystackIncludesTerm, hv]
    · have hvd : v.data ≠ [] := by
        intro e
        exact hv (by cases v; exact congrArg String.mk (by simpa using e))
      simp only [haystackIncludesTerm, hv, if_false, if_true, if_pos rfl]
      rw [wholeWordTest, List.any_eq_true]
      constructor
      · rintro ⟨i, hmem, hpred⟩
        simp only [Bool.and_eq_true] at hpred
        obtain ⟨⟨hocc, hbefore⟩, hafter⟩ := hpred
        refine ⟨hv, i, hocc, ?_, ?_⟩
        · rcases hg : hay.data.get? (i - 1) with _ | c
          · by_cases hi0 : i = 0
            · exact Or.inl hi0
            · have hi := occursAt_lt_length hocc hvd
              have := List.get?_eq_none.mp hg
              omega
          · rw [hg] at hbefore
            rcases Bool.or_eq_true_iff.mp hbefore with h | h
            · exact Or.inl (by simpa using h)
            · exact Or.inr ⟨c, rfl, by simpa using h⟩
        · exact (boundaryOpt_iff hay.data (i + v.length)).mp hafter
      · rintro ⟨_, i, hocc, hbefore, hafter⟩
        have hi : i < hay.data.length := occursAt_lt_length hocc hvd
        refine ⟨i, List.mem_range.mpr (by omega), ?_⟩
        simp only [Bool.and_eq_true]
        refine ⟨⟨hocc, ?_⟩, (boundaryOpt_iff hay.data (i + v.length)).mpr hafter⟩
        rcases hbefore with h | ⟨c, hc, hcna⟩
        · simp [h]
        · rw [Bool.or_eq_true_iff]
          right
          rw [hc]
          simpa using hcna
  · intro hay v ng hv
    simp [haystackIncludesTerm, hv]

/-! ## C7: haystack structure and the "sundefinedx" quirk -/

theorem jsIncludes_iff_infix {l v : List Char} : jsIncludes l v = true ↔ v.IsInfix l := by
  constructor
  · intro h
    rw [jsIncludes] at h
    rcases hfind : jsIndexOf l v with _ | i
    · rw [hfind] at h; cases h
    · have hocc : occursAt l v i = true := List.find?_some hfind
      have hp : v <+: l.drop i := List.isPrefixOf_iff_prefix.mp hocc
      obtain ⟨t, ht⟩ := hp
      exact ⟨l.take i, t, by rw [List.append_assoc, ht, List.take_append_drop]⟩
  · rintro ⟨s, t, rfl⟩
    rw [jsIncludes, jsIndexOf]
    have hocc : occursAt (s ++ v ++ t) v s.length = true := by
      rw [occursAt, List.append_assoc, List.drop_left]
      exact List.isPrefixOf_iff_prefix.mpr (List.prefix_append v t)
    have hmem : s.length ∈ List.range ((s ++ v ++ t).length + 1) := by
      simp [List.length_append]
      omega
    exact List.find?_isSome.mpr ⟨s.length, hmem, hocc⟩

theorem jsIncludes_of_infix {l v : List Char} (h : v.IsInfix l) : jsIncludes l v = true :=
  jsIncludes_iff_infix.mpr h

/-- A field of the space-joined, lowercased blob is found by substring
search, provided lowercasing fixes it. -/
theorem jsIncludes_lower_join (fields : List String) (v : String)
    (hv : List.map jsCharLower v.data = v.data) (hmem : v ∈ fields) :
    jsIncludes (jsToLowerStr (jsJoin " " fields)).data v.data = true := by
  induction fields with
  | nil => cases hmem
  | cons a rest ih =>
    apply jsIncludes_of_infix
    cases rest with
    | nil =>
      rcases List.mem_singleton.mp hmem with rfl
      show v.data.IsInfix (List.map jsCharLower (jsJoin " " [v]).data)
      rw [show jsJoin " " [v] = v from rfl, hv]
    | cons b rest' =>
      rw [show jsJoin " " (a :: b :: rest') = a ++ " " ++ jsJoin " " (b :: rest') from rfl]
      rcases List.mem_cons.mp hmem with rfl | hmem'
      · show v.data.IsInfix (List.map jsCharLower ((v ++ " " ++ jsJoin " " (b :: rest')).data))
        rw [String.data_append, String.data_append, List.map_append, List.map_append, hv]
        exact ⟨[], List.map jsCharLower " ".data ++ List.map jsCharLower (jsJoin " " (b :: rest')).data, by simp⟩
      · have hin : v.data.IsInfix (List.map jsCharLower (jsJoin " " (b :: rest')).data) :=
          jsIncludes_iff_infix.mp (ih hmem')
        refine hin.trans ?_
        show (List.map jsCharLower (jsJoin " " (b :: rest')).data).IsInfix
          (List.map jsCharLower ((a ++ " " ++ jsJoin " " (b :: rest')).data))
        rw [String.data_append, String.data_append, List.map_append, List.map_append]
        exact ⟨List.map jsCharLower a.data ++ List.map jsCharLower " ".data, [], by simp⟩

theorem scale_field_ne_empty (u : String) : ("s" ++ u ++ "x") ≠ "" := by
  intro h
  have hd : ("s" ++ u ++ "x").data = "".data := congrArg String.data h
  rw [String.data_append, String.data_append] at hd
  rw [show "s".data = ['s'] from rfl, show "".data = [] from rfl] at hd
  simp at hd

theorem grid_field_ne_empty (u v : String) : (u ++ "x" ++ v) ≠ "" := by
  intro h
  have hd : (u ++ "x" ++ v).data = "".data := congrArg String.data h
  rw [String.data_append, String.data_append] at hd
  rw [show "x".data = ['x'] from rfl, show "".data = [] from rfl] at hd
  simp at hd

/-- The haystack as the specification words it: the twelve fields in the
stated order, space-joined, then lowercased (no empty-string guards on the
two synthesized fields, which can never be empty). -/
def buildHaystackSpec (item : Record) : String :=
  jsToLowerStr (jsJoin " "
    [jsOrEmpty item.display_name,
     jsOrEmpty item.filename,
     jsOrEmpty item.path,
     "s" ++ jsUndef item.scale ++ "x",
     jsUndef item.grid_width ++ "x" ++ jsUndef item.grid_height,
     jsOrEmpty item.size,
     jsOrEmpty item.creature_type,
     jsOrEmpty item.variant,
     jsOrEmpty item.source,
     jsOrEmpty item.tier,
     jsOrEmpty item.color_variant,
     tagsRaw item])

/-- C7: the haystack is exactly the spec's field list, space-joined then
lowercased; a missing `scale` puts the literal text "sundefinedx" in the
haystack and missing grid fields put "undefinedxundefined" there, so the
empty record matches the query "sundefinedx". -/
theorem haystack_structure :
    (∀ item : Record, buildHaystack item = buildHaystackSpec item) ∧
    (∀ item : Record, item.scale = none →
      jsIncludes (buildHaystack item).data "sundefinedx".data = true) ∧
    (∀ item : Record, item.grid_width = none → item.grid_height = none →
      jsIncludes (buildHaystack item).data "undefinedxundefined".data = true) ∧
    «matches» {} "sundefinedx" = true := by
  refine ⟨?_, ?_, ?_, by decide⟩
  · intro item
    simp only [buildHaystack, buildHaystackSpec]
    rw [if_neg (scale_field_ne_empty (jsUndef item.scale)),
        if_neg (grid_field_ne_empty (jsUndef item.grid_width) (jsUndef item.grid_height))]
  · intro item hsc
    simp only [buildHaystack]
    apply jsIncludes_lower_join _ _ (by decide)
    rw [hsc]
    refine List.mem_cons.mpr (Or.inr (List.mem_cons.mpr (Or.inr (List.mem_cons.mpr
      (Or.inr (List.mem_cons.mpr (Or.inl (by decide))))))))
  · intro item hgw hgh
    simp only [buildHaystack]
    apply jsIncludes_lower_join _ _ (by decide)
    rw [hgw, hgh]
    refine List.mem_cons.mpr (Or.inr (List.mem_cons.mpr (Or.inr (List.mem_cons.mpr
      (Or.inr (List.mem_cons.mpr (Or.inr (List.mem_cons.mpr (Or.inl (by decide))))))))))

/-! ## C10: the scorer inspects only the first occurrence per field -/

/-- C10: for each positive term the scorer inspects only the first
occurrence (`indexOf`, the lowest index) of the term's value within each of
nameRoot, displayName and path; when that first occurrence lacks a word
boundary, a later boundary-delimited occurrence in the same field does not
raise the tier.  Per field: a non-exact term whose first nameRoot occurrence
is mid-string and unbounded contributes 500 (never the 750 boundary tier); a
non-exact term whose first displayName occurrence is mid-string and
unbounded contributes 280 (never 380); an exact term whose first path
occurrence is unbounded contributes 0 (never the 140 boundary tier). -/
theorem score_first_occurrence_each_field :
    (∀ (item : Record) (v : String) (ng : Bool) (i : Nat),
      v ≠ "" →
      (scoreNameRoot item).data ≠ v.data →
      (scoreDisplayName item).data ≠ v.data →
      jsIndexOf (scoreNameRoot item).data v.data = some i →
      i ≠ 0 →
      hasWordBoundary (scoreNameRoot item).data i v.data.length = false →
      scoreMatch item (some (Expr.term v false ng)) = 500) ∧
    (∀ (item : Record) (v : String) (ng : Bool) (j : Nat),
      v ≠ "" →
      (scoreNameRoot item).data ≠ v.data →
      (scoreDisplayName item).data ≠ v.data →
      jsIndexOf (scoreNameRoot item).data v.data = none →
      jsIndexOf (scoreDisplayName item).data v.data = some j →
      j ≠ 0 →
      hasWordBoundary (scoreDisplayName item).data j v.data.length = false →
      scoreMatch item (some (Expr.term v false ng)) = 280) ∧
    (∀ (item : Record) (v : String) (ng : Bool) (k : Nat),
      v ≠ "" →
      (scoreNameRoot item).data ≠ v.data →
      (scoreDisplayName item).data ≠ v.data →
      jsIndexOf (scoreNameRoot item).data v.data = none →
      jsIndexOf (scoreDisplayName item).data v.data = none →
      haystackIncludesTerm (scoreTags item) (Tok.TERM v true ng) = false →
      scorePath item ≠ "" →
      jsIndexOf (scorePath item).data v.data = some k →
      hasWordBoundary (scorePath item).data k v.data.length = false →
      scoreMatch item (some (Expr.term v true ng)) = 0) := by
  refine ⟨?_, ?_, ?_⟩
  · intro item v ng i hne h1 h2 hidx hi0 hbd
    have hterms : collectPos (some (Expr.term v false ng)) = [Tok.TERM v false ng] := rfl
    rw [scoreMatch, hterms]
    simp only [List.isEmpty_cons, List.map_cons, List.map_nil, List.sum_cons, List.sum_nil]
    rw [termScore]
    rw [if_neg hne, if_neg h1, if_neg h2, hidx]
    simp only [hbd, hi0, if_neg, if_false, Bool.false_eq_true, Bool.not_false, if_true]
    rfl
  · intro item v ng j hne h1 h2 hidxn hidxj hj0 hbd
    have hterms : collectPos (some (Expr.term v false ng)) = [Tok.TERM v false ng] := rfl
    rw [scoreMatch, hterms]
    simp only [List.isEmpty_cons, List.map_cons, List.map_nil, List.sum_cons, List.sum_nil]
    rw [termScore]
    rw [if_neg hne, if_neg h1, if_neg h2, hidxn, hidxj]
    simp only [hbd, hj0, if_neg, if_false, Bool.false_eq_true, Bool.not_false, if_true]
    rfl
  · intro item v ng k hne h1 h2 hidxn hidxd htags hpath hidxk hbd
    have hterms : collectPos (some (Expr.term v true ng)) = [Tok.TERM v true ng] := rfl
    rw [scoreMatch, hterms]
    simp only [List.isEmpty_cons, List.map_cons, List.map_nil, List.sum_cons, List.sum_nil]
    rw [termScore]
    rw [if_neg hne, if_neg h1, if_neg h2, hidxn, hidxd]
    simp only [htags, Bool.and_false, Bool.false_eq_true, if_false]
    rw [if_pos hpath, hidxk]
    simp only [hbd, Bool.not_true, Bool.or_false, Bool.false_eq_true, if_false]
    rfl

/-- C10 witness: all three fields at concrete inputs.  Name: "cat" against
nameRoot "scat cat" contributes 500 though "cat" also occurs
boundary-delimited at index 5.  Display: "cat" against displayName
"scatter cat" contributes 280 though "cat" also occurs boundary-delimited at
index 8.  Path: exact "cat" against path "xcat cat" contributes 0 though
"cat" also occurs boundary-delimited at index 5. -/
theorem score_first_occurrence_each_field_witness :
    scoreMatch { filename := some "scat cat.png" } (some (Expr.term "cat" false false)) = 500 ∧
    scoreMatch { display_name := some "Scatter Cat" } (some (Expr.term "cat" false false)) = 280 ∧
    scoreMatch { path := some "xcat cat" } (some (Expr.term "cat" true false)) = 0 :=
  ⟨score_first_occurrence_each_field.1 { filename := some "scat cat.png" } "cat" false 1
      (by decide) (by decide) (by decide) (by decide) (by decide) (by decide),
    score_first_occurrence_each_field.2.1 { display_name := some "Scatter Cat" } "cat" false 1
      (by decide) (by decide) (by decide) (by decide) (by decide) (by decide) (by decide),
    score_first_occurrence_each_field.2.2 { path := some "xcat cat" } "cat" false 1
      (by decide) (by decide) (by decide) (by decide) (by decide) (by decide) (by decide)
      (by decide) (by decide)⟩

/-! ## C6: and/or/not are keywords only when the lexeme is not negated -/

/-- C6: in tokenization, every ASCII case variant of "and"/"or"/"not" is
emitted as the corresponding operator token when the current lexeme is not
negated, and as a literal TERM (value lowercased, negated true) when it is
negated — whether the negation comes from a pending standalone dash
(`processLexeme true`) or from an inline leading dash; the query "-and"
therefore yields a negated TERM "and" (length 3, at least 2), never the AND
operator. -/
theorem keyword_only_when_not_negated :
    (∀ s ∈ (["and", "And", "aNd", "AND", "anD", "AnD", "aND", "ANd"] : List String),
      processLexeme false s.data = ([Tok.AND], false) ∧
      processLexeme true s.data = ([Tok.TERM "and" false true], false) ∧
      processLexeme false ('-' :: s.data) = ([Tok.TERM "and" false true], false)) ∧
    (∀ s ∈ (["or", "Or", "oR", "OR"] : List String),
      processLexeme false s.data = ([Tok.OR], false) ∧
      processLexeme true s.data = ([Tok.TERM "or" false true], false) ∧
      processLexeme false ('-' :: s.data) = ([Tok.TERM "or" false true], false)) ∧
    (∀ s ∈ (["not", "Not", "nOt", "NOT", "noT", "NoT", "nOT", "NOt"] : List String),
      processLexeme false s.data = ([Tok.NOT], false) ∧
      processLexeme true s.data = ([Tok.TERM "not" false true], false) ∧
      processLexeme false ('-' :: s.data) = ([Tok.TERM "not" false true], false)) ∧
    tokenizeQuery "-and" = [Tok.TERM "and" false true] ∧
    tokenizeQuery "AND" = [Tok.AND] := by
  refine ⟨?_, ?_, ?_, by decide, by decide⟩ <;> decide

/-! ## C5: a single negated unquoted term complements the positive term -/

/-- A character of a plain search word: accepted by the run alternative and
free of quote, dash and paren syntax. -/
def isPlainTermChar (c : Char) : Bool :=
  isRunChar c && c ≠ '\'' && c ≠ '"' && c ≠ '-'

theorem isRunChar_spec {c : Char} (h : isRunChar c = true) :
    isJsSpace c = false ∧ c ≠ '(' ∧ c ≠ ')' := by
  simp only [isRunChar, Bool.and_eq_true, Bool.not_eq_true', decide_eq_true_eq] at h
  exact ⟨h.1.1, h.1.2, h.2⟩

theorem jsTrimList_eq_self {l : List Char} (h : ∀ c ∈ l, isJsSpace c = false) :
    jsTrimList l = l := by
  unfold jsTrimList
  have h1 : l.dropWhile isJsSpace = l := by
    cases l with
    | nil => rfl
    | cons c r =>
      rw [List.dropWhile_cons, if_neg]
      simp [h c (List.mem_cons_self _ _)]
  rw [h1]
  have h2 : l.reverse.dropWhile isJsSpace = l.reverse := by
    cases hr : l.reverse with
    | nil => rfl
    | cons c r =>
      rw [List.dropWhile_cons, if_neg]
      have hc : c ∈ l := by
        rw [← List.mem_reverse, hr]
        exact List.mem_cons_self _ _
      simp [h c hc]
  rw [h2, List.reverse_reverse]

/-- A nonempty all-run lexeme (with no quote at any position) scans to the
single raw lexeme it is. -/
theorem rawScan_single_run {l : List Char} (hne : l ≠ [])
    (hall : ∀ c ∈ l, isRunChar c = true ∧ c ≠ '\'' ∧ c ≠ '"') :
    rawScan l = [l] := by
  cases l with
  | nil => exact absurd rfl hne
  | cons c rest =>
    obtain ⟨hrc, hq1, hq2⟩ := hall c (List.mem_cons_self _ _)
    obtain ⟨hsp, hp1, hp2⟩ := isRunChar_spec hrc
    rw [rawScan_cons, if_neg hp1, if_neg hp2, if_neg (by simp [hsp])]
    have hqf : (c = '\'' || c = '"') = false := by
      simp [hq1, hq2]
    rw [hqf]
    simp only [Bool.false_eq_true, if_false]
    have ht : rest.takeWhile isRunChar = rest :=
      List.takeWhile_eq_self_iff.mpr fun a ha => (hall a (List.mem_cons_of_mem c ha)).1
    have hd : rest.dropWhile isRunChar = [] :=
      List.dropWhile_eq_nil_iff.mpr fun a ha => (hall a (List.mem_cons_of_mem c ha)).1
    rw [ht, hd]
    rfl

theorem plain_chars_spec {l : List Char} (h : l.all isPlainTermChar = true) :
    (∀ c ∈ l, isRunChar c = true ∧ c ≠ '\'' ∧ c ≠ '"') ∧
    (∀ c ∈ l, isJsSpace c = false) ∧ (∀ c ∈ l, c ≠ '-') := by
  have hh := List.all_eq_true.mp h
  refine ⟨fun c hc => ?_, fun c hc => ?_, fun c hc => ?_⟩ <;>
    have := hh c hc <;>
    simp only [isPlainTermChar, Bool.and_eq_true, decide_eq_true_eq,
      Bool.not_eq_true', decide_eq_true_iff] at this
  · exact ⟨this.1.1.1, this.1.1.2, this.1.2⟩
  · exact (isRunChar_spec this.1.1.1).1
  · exact this.2

theorem processLexeme_plain (pending : Bool) {l : List Char}
    (hne : l ≠ [])
    (hplain : l.all isPlainTermChar = true)
    (hkwa : isKeyword "and" l = false) (hkwo : isKeyword "or" l = false)
    (hkwn : isKeyword "not" l = false)
    (hlen2 : 2 ≤ l.length) :
    processLexeme pending l = ([Tok.TERM ⟨l.map jsCharLower⟩ false pending], false) := by
  obtain ⟨hrun, hnsp, hnd⟩ := plain_chars_spec hplain
  have htrim : jsTrimList l = l := jsTrimList_eq_self hnsp
  have hndash : l ≠ ['-'] := by
    intro e
    exact hnd '-' (by rw [e]; exact List.mem_cons_self _ _) rfl
  have hdw : l.dropWhile (· = '-') = l := by
    cases l with
    | nil => rfl
    | cons c r =>
      rw [List.dropWhile_cons, if_neg]
      simp [hnd c (List.mem_cons_self _ _)]
  have htw : l.takeWhile (· = '(') = [] := by
    cases l with
    | nil => rfl
    | cons c r =>
      rw [List.takeWhile_cons, if_neg]
      simp [(isRunChar_spec (hrun c (List.mem_cons_self _ _)).1).2.1]
  have hdwp : l.dropWhile (· = '(') = l := by
    cases l with
    | nil => rfl
    | cons c r =>
      rw [List.dropWhile_cons, if_neg]
      simp [(isRunChar_spec (hrun c (List.mem_cons_self _ _)).1).2.1]
  have hrtw : l.reverse.takeWhile (· = ')') = [] := by
    cases hr : l.reverse with
    | nil => rfl
    | cons c r =>
      rw [List.takeWhile_cons, if_neg]
      have hc : c ∈ l := by
        rw [← List.mem_reverse, hr]
        exact List.mem_cons_self _ _
      simp [(isRunChar_spec (hrun c hc).1).2.2]
  have hrdw : l.reverse.dropWhile (· = ')') = l.reverse := by
    cases hr : l.reverse with
    | nil => rfl
    | cons c r =>
      rw [List.dropWhile_cons, if_neg]
      have hc : c ∈ l := by
        rw [← List.mem_reverse, hr]
        exact List.mem_cons_self _ _
      simp [(isRunChar_spec (hrun c hc).1).2.2]
  have hq1 : isFullyQuoted '\'' l = false := by
    cases l with
    | nil => rfl
    | cons c r =>
      have hcq : c ≠ '\'' := (hrun c (List.mem_cons_self _ _)).2.1
      simp [isFullyQuoted, hcq]
  have hq2 : isFullyQuoted '"' l = false := by
    cases l with
    | nil => rfl
    | cons c r =>
      have hcq : c ≠ '"' := (hrun c (List.mem_cons_self _ _)).2.2
      simp [isFullyQuoted, hcq]
  have hlt : decide (l.length < 2) = false := decide_eq_false (Nat.not_lt.mpr hlen2)
  simp only [processLexeme, htrim, hdw, htw, hdwp, hrtw, hrdw, List.reverse_reverse,
    List.length_nil, hq1, hq2, hkwa, hkwo, hkwn, List.length_map, hlt,
    ne_eq, eq_self_iff_true, not_true, decide_False, decide_True, Bool.or_false,
    Bool.and_true, Bool.and_false, Bool.false_and, Bool.not_false, Bool.or_eq_true,
    List.replicate, if_true]
  rw [if_neg hne, if_neg hndash, if_neg hne]
  simp [hne, List.replicate]

theorem processLexeme_dash_plain {l : List Char}
    (hne : l ≠ [])
    (hplain : l.all isPlainTermChar = true)
    (hlen2 : 2 ≤ l.length) :
    processLexeme false ('-' :: l) = ([Tok.TERM ⟨l.map jsCharLower⟩ false true], false) := by
  obtain ⟨hrun, hnsp, hnd⟩ := plain_chars_spec hplain
  have hnsp' : ∀ c ∈ ('-' :: l), isJsSpace c = false := by
    intro c hc
    rcases List.mem_cons.mp hc with rfl | hc'
    · decide
    · exact hnsp c hc'
  have htrim : jsTrimList ('-' :: l) = '-' :: l := jsTrimList_eq_self hnsp'
  have hne' : ('-' :: l) ≠ [] := by simp
  have hndash : ('-' :: l) ≠ ['-'] := by
    intro e
    exact hne (by simpa using e)
  have hdw0 : l.dropWhile (· = '-') = l := by
    cases l with
    | nil => rfl
    | cons c r =>
      rw [List.dropWhile_cons, if_neg]
      simp [hnd c (List.mem_cons_self _ _)]
  have hdw : ('-' :: l).dropWhile (· = '-') = l := by
    rw [List.dropWhile_cons]
    simp [hdw0]
  have hneq : l ≠ '-' :: l := by
    intro e
    have := congrArg List.length e
    simp at this
  have htw : l.takeWhile (· = '(') = [] := by
    cases l with
    | nil => rfl
    | cons c r =>
      rw [List.takeWhile_cons, if_neg]
      simp [(isRunChar_spec (hrun c (List.mem_cons_self _ _)).1).2.1]
  have hdwp : l.dropWhile (· = '(') = l := by
    cases l with
    | nil => rfl
    | cons c r =>
      rw [List.dropWhile_cons, if_neg]
      simp [(isRunChar_spec (hrun c (List.mem_cons_self _ _)).1).2.1]
  have hrtw : l.reverse.takeWhile (· = ')') = [] := by
    cases hr : l.reverse with
    | nil => rfl
    | cons c r =>
      rw [List.takeWhile_cons, if_neg]
      have hc : c ∈ l := by
        rw [← List.mem_reverse, hr]
        exact List.mem_cons_self _ _
      simp [(isRunChar_spec (hrun c hc).1).2.2]
  have hrdw : l.reverse.dropWhile (· = ')') = l.reverse := by
    cases hr : l.reverse with
    | nil => rfl
    | cons c r =>
      rw [List.dropWhile_cons, if_neg]
      have hc : c ∈ l := by
        rw [← List.mem_reverse, hr]
        exact List.mem_cons_self _ _
      simp [(isRunChar_spec (hrun c hc).1).2.2]
  have hq1 : isFullyQuoted '\'' l = false := by
    cases l with
    | nil => rfl
    | cons c r =>
      have hcq : c ≠ '\'' := (hrun c (List.mem_cons_self _ _)).2.1
      simp [isFullyQuoted, hcq]
  have hq2 : isFullyQuoted '"' l = false := by
    cases l with
    | nil => rfl
    | cons c r =>
      have hcq : c ≠ '"' := (hrun c (List.mem_cons_self _ _)).2.2
      simp [isFullyQuoted, hcq]
  have hlt : decide (l.length < 2) = false := decide_eq_false (Nat.not_lt.mpr hlen2)
  simp only [processLexeme, htrim, hdw, htw, hdwp, hrtw, hrdw, List.reverse_reverse,
    List.length_nil, hq1, hq2, List.length_map, hlt,
    ne_eq, eq_self_iff_true, not_true, decide_False, decide_True, Bool.or_false,
    Bool.and_true, Bool.and_false, Bool.false_and, Bool.not_false, Bool.not_true,
    List.replicate, if_true]
  rw [if_neg hne', if_neg hndash, if_neg hne]
  simp [hne, hneq, List.replicate]

/-- A plain word scans to a single non-exact TERM token; prefixed with a
dash it scans to the same TERM with `negated := true`. -/
theorem tokenizeQuery_plain (t : String)
    (hne : t.data ≠ [])
    (hplain : t.data.all isPlainTermChar = true)
    (hkwa : isKeyword "and" t.data = false) (hkwo : isKeyword "or" t.data = false)
    (hkwn : isKeyword "not" t.data = false)
    (hlen2 : 2 ≤ t.data.length) :
    tokenizeQuery t = [Tok.TERM ⟨t.data.map jsCharLower⟩ false false] ∧
    tokenizeQuery ("-" ++ t) = [Tok.TERM ⟨t.data.map jsCharLower⟩ false true] := by
  obtain ⟨hrun, _, hnd⟩ := plain_chars_spec hplain
  constructor
  · show tokensFrom false (rawScan t.data) = _
    rw [rawScan_single_run hne hrun]
    show (processLexeme false t.data).1 ++ tokensFrom (processLexeme false t.data).2 [] = _
    rw [processLexeme_plain false hne hplain hkwa hkwo hkwn hlen2]
    rfl
  · show tokensFrom false (rawScan ("-" ++ t).data) = _
    have hdata : ("-" ++ t).data = '-' :: t.data := by
      rw [String.data_append]
      rfl
    rw [hdata]
    have hall' : ∀ c ∈ ('-' :: t.data), isRunChar c = true ∧ c ≠ '\'' ∧ c ≠ '"' := by
      intro c hc
      rcases List.mem_cons.mp hc with rfl | hc'
      · refine ⟨by decide, by decide, by decide⟩
      · exact hrun c hc'
    rw [rawScan_single_run (by simp) hall']
    show (processLexeme false ('-' :: t.data)).1 ++
      tokensFrom (processLexeme false ('-' :: t.data)).2 [] = _
    rw [processLexeme_dash_plain hne hplain hlen2]
    rfl

/-- C5: prefixing a dash to a single plain unquoted term of length at least
two (and which is not an `and`/`or`/`not` keyword, so that the query holds
no other token) negates the predicate: `matches(r, "-t")` is true exactly
when `matches(r, t)` is false. -/
theorem single_negated_term_complements (r : Record) (t : String)
    (hplain : t.data.all isPlainTermChar = true)
    (hlen : 2 ≤ t.data.length)
    (hkwa : isKeyword "and" t.data = false) (hkwo : isKeyword "or" t.data = false)
    (hkwn : isKeyword "not" t.data = false) :
    «matches» r ("-" ++ t) = !(«matches» r t) := by
  have hne : t.data ≠ [] := by
    intro e
    rw [e] at hlen
    simp at hlen
  obtain ⟨htok, htokd⟩ := tokenizeQuery_plain t hne hplain hkwa hkwo hkwn hlen
  have hqne : ("-" ++ t) ≠ "" := by
    intro e
    have := congrArg String.data e
    rw [String.data_append] at this
    simp at this
  have htne : t ≠ "" := by
    intro e
    rw [e] at hne
    exact hne rfl
  rw [«matches», «matches», if_neg hqne, if_neg htne, htok, htokd]
  simp only [List.isEmpty_cons, Bool.false_eq_true, if_false]
  have hp1 : parseQueryAST [Tok.TERM ⟨t.data.map jsCharLower⟩ false false] =
      some (Expr.term ⟨t.data.map jsCharLower⟩ false false) := rfl
  have hp2 : parseQueryAST [Tok.TERM ⟨t.data.map jsCharLower⟩ false true] =
      some (Expr.not (Expr.term ⟨t.data.map jsCharLower⟩ false true)) := rfl
  rw [hp1, hp2]
  simp only [evaluateExpression, evalExpr, haystackIncludesTerm]

/-- C5 witness: "-cat" against a record whose haystack contains "cat". -/
theorem single_negated_term_complements_witness :
    «matches» { filename := some "catalog.png" } ("-" ++ "cat") =
      !(«matches» { filename := some "catalog.png" } "cat") :=
  single_negated_term_complements { filename := some "catalog.png" } "cat"
    (by decide) (by decide) (by decide) (by decide) (by decide)

/-! ## The sort: comparator laws, permutation, sortedness, stability -/

theorem charCmp_self (a : Char) : charCmp a a = Ordering.eq := by
  rw [charCmp, if_neg (lt_irrefl a), if_neg (lt_irrefl a)]

theorem charCmp_of_lt {a b : Char} (h : a < b) : charCmp a b = Ordering.lt := by
  rw [charCmp, if_pos h]

theorem charCmp_of_gt {a b : Char} (h : b < a) : charCmp a b = Ordering.gt := by
  rw [charCmp, if_neg (lt_asymm h), if_pos h]

theorem charCmp_swap (a b : Char) : charCmp a b = (charCmp b a).swap := by
  rcases lt_trichotomy a b with h | rfl | h
  · rw [charCmp_of_lt h, charCmp_of_gt h]
    rfl
  · rw [charCmp_self]
    rfl
  · rw [charCmp_of_gt h, charCmp_of_lt h]
    rfl

theorem charCmp_eq_iff {a b : Char} : charCmp a b = Ordering.eq ↔ a = b := by
  constructor
  · intro h
    rcases lt_trichotomy a b with hl | rfl | hl
    · rw [charCmp_of_lt hl] at h
      cases h
    · rfl
    · rw [charCmp_of_gt hl] at h
      cases h
  · rintro rfl
    exact charCmp_self a

theorem charCmp_lt_iff {a b : Char} : charCmp a b = Ordering.lt ↔ a < b := by
  constructor
  · intro h
    rcases lt_trichotomy a b with hl | rfl | hl
    · exact hl
    · rw [charCmp_self] at h
      cases h
    · rw [charCmp_of_gt hl] at h
      cases h
  · exact charCmp_of_lt

theorem listCmp_swap : ∀ (a b : List Char), listCmp a b = (listCmp b a).swap := by
  intro a
  induction a with
  | nil =>
    intro b
    cases b <;> rfl
  | cons x xs ih =>
    intro b
    cases b with
    | nil => rfl
    | cons y ys =>
      show (match charCmp x y with
            | Ordering.eq => listCmp xs ys
            | o => o) =
          (match charCmp y x with
            | Ordering.eq => listCmp ys xs
            | o => o).swap
      rw [charCmp_swap x y, ih ys]
      rcases charCmp y x with _ | _ | _ <;> rfl

theorem listCmp_not_gt_trans : ∀ (a b c : List Char),
    listCmp a b ≠ Ordering.gt → listCmp b c ≠ Ordering.gt → listCmp a c ≠ Ordering.gt := by
  intro a
  induction a with
  | nil =>
    intro b c _ _
    cases c <;> simp [listCmp]
  | cons x xs ih =>
    intro b c hab hbc
    cases b with
    | nil => simp [listCmp] at hab
    | cons y ys =>
      cases c with
      | nil => simp [listCmp] at hbc
      | cons z zs =>
        simp only [listCmp] at hab hbc ⊢
        rcases hxy : charCmp x y with _ | _ | _ <;> rw [hxy] at hab
        · -- x < y
          have hxylt := charCmp_lt_iff.mp hxy
          rcases hyz : charCmp y z with _ | _ | _ <;> rw [hyz] at hbc
          · have := charCmp_lt_iff.mp hyz
            rw [charCmp_of_lt (lt_trans hxylt this)]
            simp
          · obtain rfl := charCmp_eq_iff.mp hyz
            rw [charCmp_of_lt hxylt]
            simp
          · exact absurd rfl hbc
        · -- x = y
          obtain rfl := charCmp_eq_iff.mp hxy
          rcases hyz : charCmp x z with _ | _ | _ <;> rw [hyz] at hbc
          · simp
          · exact ih ys zs hab hbc
          · exact absurd rfl hbc
        · exact absurd rfl hab

theorem localeCompare_nonpos_iff {a b : String} :
    localeCompare a b ≤ 0 ↔
      listCmp (a.data.map jsCharLower) (b.data.map jsCharLower) ≠ Ordering.gt := by
  rw [localeCompare]
  rcases h : listCmp (a.data.map jsCharLower) (b.data.map jsCharLower) with _ | _ | _ <;>
    simp

theorem localeCompare_total (a b : String) :
    localeCompare a b ≤ 0 ∨ localeCompare b a ≤ 0 := by
  rw [localeCompare_nonpos_iff, localeCompare_nonpos_iff,
    listCmp_swap (b.data.map jsCharLower) (a.data.map jsCharLower)]
  rcases listCmp (a.data.map jsCharLower) (b.data.map jsCharLower) with _ | _ | _ <;> decide

theorem localeCompare_trans {a b c : String} (hab : localeCompare a b ≤ 0)
    (hbc : localeCompare b c ≤ 0) : localeCompare a c ≤ 0 := by
  rw [localeCompare_nonpos_iff] at hab hbc ⊢
  exact listCmp_not_gt_trans _ _ _ hab hbc

/-- The comparator characterized: `a` may precede `b` iff `a`'s score is
higher, or the scores tie and the display keys compare non-positively. -/
theorem rowLe_iff {a b : Record × Nat} :
    rowLe a b = true ↔
      (b.2 < a.2 ∨ (b.2 = a.2 ∧ localeCompare (displayKey a.1) (displayKey b.1) ≤ 0)) := by
  rw [rowLe, decide_eq_true_iff, rowCmp]
  by_cases h : ((b.2 : Int) - (a.2 : Int)) ≠ 0
  · rw [if_pos h]
    constructor
    · intro hle
      left
      omega
    · rintro (hlt | ⟨heq, _⟩)
      · omega
      · omega
  · rw [if_neg h]
    push_neg at h
    constructor
    · intro hle
      right
      exact ⟨by omega, hle⟩
    · rintro (hlt | ⟨_, hlc⟩)
      · omega
      · exact hlc

theorem rowLe_total (a b : Record × Nat) : rowLe a b = true ∨ rowLe b a = true := by
  rw [rowLe_iff, rowLe_iff]
  rcases Nat.lt_trichotomy a.2 b.2 with h | h | h
  · right
    left
    exact h
  · rcases localeCompare_total (displayKey a.1) (displayKey b.1) with hl | hl
    · left
      right
      exact ⟨h.symm, hl⟩
    · right
      right
      exact ⟨h, hl⟩
  · left
    left
    exact h

theorem rowLe_trans {a b c : Record × Nat} (hab : rowLe a b = true)
    (hbc : rowLe b c = true) : rowLe a c = true := by
  rw [rowLe_iff] at hab hbc ⊢
  rcases hab with h1 | ⟨h1, hl1⟩ <;> rcases hbc with h2 | ⟨h2, hl2⟩
  · left
    omega
  · left
    omega
  · left
    omega
  · right
    exact ⟨by omega, localeCompare_trans hl1 hl2⟩

theorem insertLe_perm {α : Type} (le : α → α → Bool) (x : α) :
    ∀ l : List α, List.Perm (insertLe le x l) (x :: l) := by
  intro l
  induction l with
  | nil => exact List.Perm.refl _
  | cons y ys ih =>
    rw [insertLe]
    by_cases h : le y x = true
    · rw [if_pos h]
      exact (ih.cons y).trans (List.Perm.swap x y ys)
    · rw [if_neg h]

theorem jsSort_perm {α : Type} (le : α → α → Bool) (l : List α) :
    List.Perm (jsSort le l) l := by
  have key : ∀ (l acc : List α),
      List.Perm (List.foldl (fun acc x => insertLe le x acc) acc l) (l ++ acc) := by
    intro l
    induction l with
    | nil => intro acc; simp
    | cons x xs ih =>
      intro acc
      rw [List.foldl_cons, List.cons_append]
      refine (ih (insertLe le x acc)).trans ?_
      refine (List.Perm.append_left xs (insertLe_perm le x acc)).trans ?_
      exact List.perm_middle
  simpa using key l []

theorem mem_insertLe {α : Type} {le : α → α → Bool} {x z : α} {l : List α} :
    z ∈ insertLe le x l ↔ z = x ∨ z ∈ l := by
  rw [(insertLe_perm le x l).mem_iff]
  simp

theorem insertLe_pairwise {α : Type} {le : α → α → Bool}
    (htot : ∀ a b, le a b = true ∨ le b a = true)
    (htrans : ∀ a b c, le a b = true → le b c = true → le a c = true)
    (x : α) : ∀ {l : List α}, l.Pairwise (fun a b => le a b = true) →
      (insertLe le x l).Pairwise (fun a b => le a b = true) := by
  intro l
  induction l with
  | nil =>
    intro _
    simp [insertLe]
  | cons y ys ih =>
    intro hp
    rw [List.pairwise_cons] at hp
    obtain ⟨hy, hys⟩ := hp
    rw [insertLe]
    by_cases h : le y x = true
    · rw [if_pos h]
      rw [List.pairwise_cons]
      refine ⟨?_, ih hys⟩
      intro z hz
      rcases mem_insertLe.mp hz with rfl | hz'
      · exact h
      · exact hy z hz'
    · rw [if_neg h]
      have hxy : le x y = true := (htot x y).resolve_right (fun e => h e)
      rw [List.pairwise_cons]
      refine ⟨?_, List.pairwise_cons.mpr ⟨hy, hys⟩⟩
      intro z hz
      rcases List.mem_cons.mp hz with rfl | hz'
      · exact hxy
      · exact htrans x y z hxy (hy z hz')

theorem jsSort_pairwise {α : Type} {le : α → α → Bool}
    (htot : ∀ a b, le a b = true ∨ le b a = true)
    (htrans : ∀ a b c, le a b = true → le b c = true → le a c = true)
    (l : List α) : (jsSort le l).Pairwise (fun a b => le a b = true) := by
  have key : ∀ (l acc : List α), acc.Pairwise (fun a b => le a b = true) →
      (List.foldl (fun acc x => insertLe le x acc) acc l).Pairwise
        (fun a b => le a b = true) := by
    intro l
    induction l with
    | nil => intro acc h; simpa using h
    | cons x xs ih =>
      intro acc h
      rw [List.foldl_cons]
      exact ih _ (insertLe_pairwise htot htrans x h)
  exact key l [] (by simp)

theorem insertLe_of_all {α : Type} {le : α → α → Bool} {x : α} :
    ∀ {l : List α}, (∀ y ∈ l, le y x = true) → insertLe le x l = l ++ [x] := by
  intro l
  induction l with
  | nil => intro _; rfl
  | cons y ys ih =>
    intro h
    rw [insertLe, if_pos (h y (List.mem_cons_self _ _)), List.cons_append]
    rw [ih fun z hz => h z (List.mem_cons_of_mem y hz)]

/-- The stable sort leaves an already-sorted list unchanged. -/
theorem jsSort_of_pairwise {α : Type} {le : α → α → Bool} :
    ∀ {l : List α}, l.Pairwise (fun a b => le a b = true) → jsSort le l = l := by
  intro l
  induction l using List.reverseRecOn with
  | nil => intro _; rfl
  | append_singleton l x ih =>
    intro hp
    rw [List.pairwise_append] at hp
    obtain ⟨hl, _, hcross⟩ := hp
    have hstep : jsSort le (l ++ [x]) = insertLe le x (jsSort le l) := by
      rw [jsSort, List.foldl_append]
      rfl
    rw [hstep, ih hl]
    exact insertLe_of_all fun y hy => hcross y hy x (List.mem_cons_self _ _)

/-! ## Structure of `filter` in the parsed case -/

theorem parse_some_trim_ne {q : String} {a : Expr}
    (h : parseQueryAST (tokenizeQuery (jsTrim q)) = some a) :
    jsTrim q ≠ "" ∧ (tokenizeQuery (jsTrim q)).isEmpty = false := by
  constructor
  · intro e
    rw [e] at h
    have hz : parseQueryAST (tokenizeQuery "") = none := rfl
    rw [hz] at h
    cases h
  · rcases he : tokenizeQuery (jsTrim q) with _ | ⟨t, ts⟩
    · rw [he] at h
      have hz : parseQueryAST [] = none := rfl
      rw [hz] at h
      cases h
    · rfl

/-- In the parsed case, `filter` is exactly: build pairs, evaluate, score,
stable-sort with the comparator, project (the empty-result early return
returns the same empty list the sort would). -/
theorem filter_eq_sort (items : List Record) (q : String) (a : Expr)
    (h : parseQueryAST (tokenizeQuery (jsTrim q)) = some a) :
    NexusSearchManager.filter items q =
      (jsSort rowLe (((items.map fun item => (item, buildHaystack item)).filter
          fun p => evaluateExpression (some a) p.2).map
        fun p => (p.1, scoreMatch p.1 (some a)))).map Prod.fst := by
  obtain ⟨hq, htok⟩ := parse_some_trim_ne h
  unfold NexusSearchManager.filter
  rw [if_neg hq]
  simp only [htok, Bool.false_eq_true, if_false, h]
  by_cases hemp : ((items.map fun item => (item, buildHaystack item)).filter
      fun p => evaluateExpression (some a) p.2).isEmpty
  · rw [if_pos hemp]
    rw [List.isEmpty_iff] at hemp
    rw [hemp]
    rfl
  · rw [if_neg hemp]

/-! ## C9: no mutation; identity on blank queries -/

/-- C9: the engine never mutates records — in this pure embedding every
record that `filter` returns is one of the input records, value for value —
and a blank query is the identity: `filter(records, "")` returns the input
list itself, as does any query that trims to the empty string. -/
theorem filter_no_mutation_blank_identity (items : List Record) (q : String) (r : Record) :
    NexusSearchManager.filter items "" = items ∧
    (jsTrim q = "" → NexusSearchManager.filter items q = items) ∧
    (r ∈ NexusSearchManager.filter items q → r ∈ items) := by
  have hblank : ∀ (its : List Record) (s : String), jsTrim s = "" →
      NexusSearchManager.filter its s = its := by
    intro its s hs
    unfold NexusSearchManager.filter
    rw [if_pos hs]
  refine ⟨hblank items "" rfl, hblank items q, ?_⟩
  intro hr
  by_cases h0 : jsTrim q = ""
  · rwa [hblank items q h0] at hr
  · by_cases h1 : (tokenizeQuery (jsTrim q)).isEmpty
    · unfold NexusSearchManager.filter at hr
      rw [if_neg h0] at hr
      simp only [h1, if_true] at hr
      exact hr
    · rcases h2 : parseQueryAST (tokenizeQuery (jsTrim q)) with _ | a
      · unfold NexusSearchManager.filter at hr
        rw [if_neg h0] at hr
        simp only [h1, Bool.false_eq_true, if_false, h2] at hr
        exact hr
      · rw [filter_eq_sort items q a h2] at hr
        obtain ⟨row, hrow, hfst⟩ := List.mem_map.mp hr
        have hrow2 := (jsSort_perm rowLe _).mem_iff.mp hrow
        obtain ⟨p, hp, hpe⟩ := List.mem_map.mp hrow2
        have hpmem := List.mem_of_mem_filter hp
        obtain ⟨item, hitem, hpair⟩ := List.mem_map.mp hpmem
        rw [← hfst, ← hpe]
        simp only []
        rw [← hpair]
        exact hitem

/-- C9 witness: a matching one-record filter returns that record, an element
of the input. -/
theorem filter_no_mutation_blank_identity_witness :
    ({ filename := some "cat.png" } : Record) ∈ [({ filename := some "cat.png" } : Record)] :=
  (filter_no_mutation_blank_identity [{ filename := some "cat.png" }] "cat"
    { filename := some "cat.png" }).2.2 (by decide)

/-! ## C3: output order — corrected -/

/-- C3 counterexample: the query "-" is non-blank but its token stream is
empty, so `filter` returns the input unchanged; with equal (zero) scores the
records stay in input order "b", "a" — descending display keys — violating
the claimed tie ordering for every non-blank query. -/
theorem filter_tie_order_counterexample :
    jsTrim "-" ≠ "" ∧
    ¬ ((NexusSearchManager.filter
        [{ display_name := some "b" }, { display_name := some "a" }] "-").Pairwise
      fun r1 r2 =>
        scoreMatch r2 (parseQueryAST (tokenizeQuery (jsTrim "-"))) ≤
          scoreMatch r1 (parseQueryAST (tokenizeQuery (jsTrim "-"))) ∧
        (scoreMatch r1 (parseQueryAST (tokenizeQuery (jsTrim "-"))) =
            scoreMatch r2 (parseQueryAST (tokenizeQuery (jsTrim "-"))) →
          localeCompare (displayKey r1) (displayKey r2) ≤ 0)) := by
  decide

/-- C3 (amended): for every record list and every query whose trimmed token
stream parses to a non-null tree, `filter` orders its output by score
descending, breaking score ties by ascending case-insensitive locale
comparison of the display keys (`display_name`, else `displayName`, else
`filename`, else `name`, else empty). -/
theorem filter_sorted_score_then_displayKey (items : List Record) (q : String) (a : Expr)
    (h : parseQueryAST (tokenizeQuery (jsTrim q)) = some a) :
    (NexusSearchManager.filter items q).Pairwise fun r1 r2 =>
      scoreMatch r2 (some a) ≤ scoreMatch r1 (some a) ∧
      (scoreMatch r1 (some a) = scoreMatch r2 (some a) →
        localeCompare (displayKey r1) (displayKey r2) ≤ 0) := by
  rw [filter_eq_sort items q a h]
  set rows := ((items.map fun item => (item, buildHaystack item)).filter
      fun p => evaluateExpression (some a) p.2).map
    fun p => (p.1, scoreMatch p.1 (some a)) with hrows
  have hsorted : (jsSort rowLe rows).Pairwise (fun x y => rowLe x y = true) :=
    jsSort_pairwise rowLe_total (fun x y z hab hbc => rowLe_trans hab hbc) rows
  have hscore : ∀ p ∈ jsSort rowLe rows, p.2 = scoreMatch p.1 (some a) := by
    intro p hp
    have hmem := (jsSort_perm rowLe rows).mem_iff.mp hp
    rw [hrows] at hmem
    obtain ⟨x, _, he⟩ := List.mem_map.mp hmem
    rw [← he]
  rw [List.pairwise_map]
  refine List.Pairwise.imp_of_mem ?_ hsorted
  intro p1 p2 hp1 hp2 hle
  rw [rowLe_iff] at hle
  rw [hscore p1 hp1, hscore p2 hp2] at hle
  rcases hle with hlt | ⟨heq, hlc⟩
  · exact ⟨le_of_lt hlt, fun he => absurd he.symm (ne_of_lt hlt)⟩
  · exact ⟨le_of_eq heq, fun _ => hlc⟩

/-- C3 witness: a two-record tie ("Goblin Archer" vs "Goblin Warrior", both
scoring 1100 on "goblin") comes out in ascending display-key order. -/
theorem filter_sorted_score_then_displayKey_witness :
    (NexusSearchManager.filter
      [{ filename := some "goblin_warrior.png", display_name := some "Goblin Warrior" },
       { filename := some "goblin_archer.png", display_name := some "Goblin Archer" }]
      "goblin").Pairwise (fun r1 r2 =>
        scoreMatch r2 (some (Expr.term "goblin" false false)) ≤
          scoreMatch r1 (some (Expr.term "goblin" false false)) ∧
        (scoreMatch r1 (some (Expr.term "goblin" false false)) =
            scoreMatch r2 (some (Expr.term "goblin" false false)) →
          localeCompare (displayKey r1) (displayKey r2) ≤ 0)) :=
  filter_sorted_score_then_displayKey
    [{ filename := some "goblin_warrior.png", display_name := some "Goblin Warrior" },
     { filename := some "goblin_archer.png", display_name := some "Goblin Archer" }]
    "goblin" (Expr.term "goblin" false false) (by decide)

/-! ## C8: filtering twice with the same query is a no-op -/

/-- C8: `filter(filter(records, q), q)` returns exactly
`filter(records, q)`: every record kept by the first pass still matches, the
scores are recomputed identically, and the stable sort leaves the
already-sorted list unchanged. -/
theorem filter_idempotent (items : List Record) (q : String) :
    NexusSearchManager.filter (NexusSearchManager.filter items q) q =
      NexusSearchManager.filter items q := by
  by_cases h0 : jsTrim q = ""
  · have e : NexusSearchManager.filter (NexusSearchManager.filter items q) q =
        NexusSearchManager.filter items q := by
      unfold NexusSearchManager.filter
      rw [if_pos h0, if_pos h0]
    exact e
  · by_cases h1 : (tokenizeQuery (jsTrim q)).isEmpty
    · have e : ∀ its : List Record, NexusSearchManager.filter its q = its := by
        intro its
        unfold NexusSearchManager.filter
        rw [if_neg h0]
        simp only [h1, if_true]
      rw [e, e]
    · rcases h2 : parseQueryAST (tokenizeQuery (jsTrim q)) with _ | a
      · have e : ∀ its : List Record, NexusSearchManager.filter its q = its := by
          intro its
          unfold NexusSearchManager.filter
          rw [if_neg h0]
          simp only [h1, Bool.false_eq_true, if_false, h2]
        rw [e, e]
      · have hout := filter_eq_sort items q a h2
        set rows := ((items.map fun item => (item, buildHaystack item)).filter
            fun p => evaluateExpression (some a) p.2).map
          fun p => (p.1, scoreMatch p.1 (some a)) with hrows
        set S := jsSort rowLe rows with hS
        have hrowfact : ∀ p ∈ S, p.2 = scoreMatch p.1 (some a) ∧
            evaluateExpression (some a) (buildHaystack p.1) = true := by
          intro p hp
          have hmem := (jsSort_perm rowLe rows).mem_iff.mp hp
          rw [hrows] at hmem
          obtain ⟨x, hx, he⟩ := List.mem_map.mp hmem
          have hxf := List.mem_of_mem_filter hx
          have hxe := List.of_mem_filter hx
          obtain ⟨item, _, hpair⟩ := List.mem_map.mp hxf
          obtain rfl := hpair
          rw [← he]
          exact ⟨rfl, hxe⟩
        have hsorted : S.Pairwise (fun x y => rowLe x y = true) := by
          rw [hS]
          exact jsSort_pairwise rowLe_total (fun x y z hab hbc => rowLe_trans hab hbc) rows
        rw [hout]
        rw [filter_eq_sort (S.map Prod.fst) q a h2]
        have hfiltered' : ((S.map Prod.fst).map fun item => (item, buildHaystack item)).filter
            (fun p => evaluateExpression (some a) p.2) =
            (S.map Prod.fst).map fun item => (item, buildHaystack item) := by
          apply List.filter_eq_self.mpr
          intro p hp
          obtain ⟨r, hr, hpe⟩ := List.mem_map.mp hp
          obtain ⟨row, hrow, hfst⟩ := List.mem_map.mp hr
          rw [← hpe]
          rw [← hfst]
          exact (hrowfact row hrow).2
        rw [hfiltered']
        rw [List.map_map, List.map_map]
        have hmapid : S.map (((fun p : Record × String => (p.1, scoreMatch p.1 (some a))) ∘
            (fun item => (item, buildHaystack item))) ∘ Prod.fst) = S := by
          have hcongr := List.map_congr_left (l := S)
            (f := ((fun p : Record × String => (p.1, scoreMatch p.1 (some a))) ∘
              (fun item => (item, buildHaystack item))) ∘ Prod.fst) (g := id)
            (fun p hp => by
              simp only [Function.comp_apply, id_eq]
              have := (hrowfact p hp).1
              rw [← this])
          rw [hcongr, List.map_id]
        rw [hmapid]
        rw [jsSort_of_pairwise hsorted]
